import Mathlib

/-!
Verification development for the `sqlstruct` Go package (kisielk/sqlstruct,
generics fork).  The package maps struct fields to SQL result-set columns:
it builds a per-type field index (`getFieldInfo`), generates sorted column
lists (`cols`, `Columns`, `ColumnsAliased`), and scans rows into structs
(`doScan`, `Scan`, `ScanAliased`), with query helpers (`doQuery`,
`joinOrErr`).  The definitions below are a shallow embedding of
`sqlstruct.go`; theorems establish the documented behaviours.
-/

namespace Sqlstruct

/-- Model of a Go type as seen by `getFieldInfo`'s reflection: either a
non-struct leaf type, or a struct with a flag recording whether a pointer
to it implements the `Scanner` interface, and an ordered field list.
Each field is `(name, tag, exported, anonymous, type)` where `tag` is the
value of `f.Tag.Get(TagName)` (`""` when absent) and `exported` models
`f.PkgPath == ""`. -/
inductive FieldType : Type where
  | leaf : FieldType
  | strct (implSc : Bool)
      (fields : List (String × String × Bool × Bool × FieldType)) : FieldType
deriving Repr

/-- A struct field descriptor: name, tag, exported flag, anonymous flag, type. -/
abbrev GField := String × String × Bool × Bool × FieldType

/-- Field name (`f.Name`). -/
def fname (f : GField) : String := f.1

/-- Field tag (`f.Tag.Get(TagName)`, empty when untagged). -/
def ftag (f : GField) : String := f.2.1

/-- Whether the field is exported (`f.PkgPath == ""`). -/
def fexported (f : GField) : Bool := f.2.2.1

/-- Whether the field is anonymous/embedded (`f.Anonymous`). -/
def fanon (f : GField) : Bool := f.2.2.2.1

/-- The field's type (`f.Type`). -/
def ftype (f : GField) : FieldType := f.2.2.2.2

/-- `f.Type.Kind() == reflect.Struct`. -/
def isStruct : FieldType → Bool
  | .strct _ _ => true
  | .leaf => false

/-- `reflect.PtrTo(f.Type).Implements(scannerType)`; only consulted on structs. -/
def implScanner : FieldType → Bool
  | .strct b _ => b
  | .leaf => false

/-- The default `NameMapper` of the package, `strings.ToLower`: lower-case
every character of the name. -/
def NameMapper (s : String) : String := ⟨s.data.map Char.toLower⟩

/-- `fieldInfo`: the Go `map[string][]int` from normalized column name to
field index path, modelled as an association list with unique keys. -/
abbrev FieldInfo := List (String × List Nat)

/-- Lookup in the field-info map (`fInfo[name]`). -/
def fiLookup : FieldInfo → String → Option (List Nat)
  | [], _ => none
  | (k, v) :: rest, key => if k = key then some v else fiLookup rest key

/-- Go map assignment `finfo[k] = v`: replace the binding if the key is
present, otherwise add it. -/
def fiInsert : FieldInfo → String → List Nat → FieldInfo
  | [], k, v => [(k, v)]
  | (k', v') :: rest, k, v =>
      if k' = k then (k, v) :: rest else (k', v') :: fiInsert rest k v

/-- One iteration of the field loop in `getFieldInfo`, for field `f` at
position `i`; `sub` is `getFieldInfo f.Type` (used only on the embedded
branch).  Mirrors: skip unexported or `"-"`-tagged fields; merge the
flattened sub-index for anonymous struct fields whose pointer type does
not implement `Scanner`, prepending `i` to each path; otherwise bind the
normalized tag (or name) to path `[i]`. -/
def stepField (i : Nat) (f : GField) (sub : FieldInfo) (acc : FieldInfo) : FieldInfo :=
  if fexported f = false || ftag f = "-" then acc
  else if fanon f && isStruct (ftype f) && !implScanner (ftype f) then
    sub.foldl (fun m kv => fiInsert m kv.1 (i :: kv.2)) acc
  else
    fiInsert acc (NameMapper (if ftag f = "" then fname f else ftag f)) [i]

/-- The field loop of `getFieldInfo`: fold `stepField` over the fields,
paired with their precomputed sub-indices, counting positions from `i`. -/
def buildFrom : List (GField × FieldInfo) → Nat → FieldInfo → FieldInfo
  | [], _, acc => acc
  | (f, sub) :: rest, i, acc => buildFrom rest (i + 1) (stepField i f sub acc)

/-- `getFieldInfo`: build the field index of a type.  (The Go code also
caches the result; the cache stores exactly this pure function's value, so
it is semantically transparent.) -/
def getFieldInfo : FieldType → FieldInfo
  | .leaf => []
  | .strct _ fields =>
      buildFrom (fields.attach.map (fun p => (p.1, getFieldInfo (ftype p.1)))) 0 []
termination_by t => sizeOf t
decreasing_by
  rename_i fields' p
  obtain ⟨f, hmem⟩ := p
  have hm := List.sizeOf_lt_of_mem hmem
  obtain ⟨n, tg, e, a, ft⟩ := f
  simp only [ftype]
  simp only [Prod.mk.sizeOf_spec] at hm
  simp only [FieldType.strct.sizeOf_spec]
  omega

/-- Lexicographic string comparison on the character lists, the order
`sort.Strings` uses (byte order on UTF-8 agrees with codepoint order). -/
def strLebL : List Char → List Char → Bool
  | [], _ => true
  | _ :: _, [] => false
  | c :: cs, d :: ds => if c = d then strLebL cs ds else decide (c < d)

/-- `a` sorts no later than `b` under `sort.Strings`. -/
def strLe (a b : String) : Prop := strLebL a.data b.data = true

instance strLe.decRel : DecidableRel strLe :=
  fun a b => inferInstanceAs (Decidable (_ = true))

theorem strLebL_iff (cs ds : List Char) :
    strLebL cs ds = true ↔ ¬ List.lt ds cs := by
  induction cs generalizing ds with
  | nil =>
    cases ds with
    | nil => simp [strLebL]; intro h; cases h
    | cons d ds' => simp [strLebL]; intro h; cases h
  | cons c cs' ih =>
    cases ds with
    | nil =>
      simp only [strLebL, Bool.false_eq_true, false_iff, not_not]
      exact .nil c cs'
    | cons d ds' =>
      by_cases hcd : c = d
      · subst hcd
        have he : strLebL (c :: cs') (c :: ds') = strLebL cs' ds' := by
          simp [strLebL]
        rw [he, ih]
        constructor
        · intro h hlt
          cases hlt with
          | head _ _ hl => exact absurd hl (lt_irrefl c)
          | tail h1 h2 h3 => exact h h3
        · intro h hlt
          exact h (.tail (lt_irrefl c) (lt_irrefl c) hlt)
      · simp only [strLebL, if_neg hcd, decide_eq_true_eq]
        rcases lt_or_gt_of_ne (show c ≠ d from hcd) with hlt | hgt
        · simp only [hlt, true_iff]
          intro h
          cases h with
          | head _ _ hl => exact absurd (lt_trans hl hlt) (lt_irrefl d)
          | tail h1 h2 h3 => exact h2 hlt
        · simp only [not_lt.2 (le_of_lt hgt), false_iff, not_not]
          exact .head _ _ hgt

theorem strLe_iff_le (a b : String) : strLe a b ↔ a ≤ b := by
  rw [strLe, strLebL_iff, String.le_iff_toList_le, ← not_lt]
  apply not_congr
  rw [List.lt_iff_lex_lt]
  exact Iff.rfl

theorem strLe_total (a b : String) : strLe a b ∨ strLe b a := by
  rw [strLe_iff_le, strLe_iff_le]
  exact le_total a b

theorem strLe_trans {a b c : String} (h1 : strLe a b) (h2 : strLe b c) : strLe a c := by
  rw [strLe_iff_le] at *
  exact le_trans h1 h2

instance strLe.isTotal : IsTotal String strLe := ⟨strLe_total⟩

instance strLe.isTrans : IsTrans String strLe := ⟨fun _ _ _ => strLe_trans⟩

/-- `cols`: the sorted list of column names of a type (`sort.Strings`
over the index's keys; lexicographically ascending). -/
def cols (t : FieldType) : List String :=
  ((getFieldInfo t).map Prod.fst).insertionSort strLe

/-- `Columns[T]()`: the sorted names joined with `", "`. -/
def Columns (t : FieldType) : String :=
  String.intercalate ", " (cols t)

/-- `ColumnsAliased[T](al)`: each sorted name `n` becomes
`al.n AS al_n`, joined with `", "`. -/
def ColumnsAliased (t : FieldType) (al : String) : String :=
  String.intercalate ", "
    ((cols t).map (fun n => al ++ "." ++ n ++ " AS " ++ al ++ "_" ++ n))

/-- Whether `pat` begins the character list `s` (byte-level substring match
at the current position; the patterns used by the package are ASCII, for
which byte and codepoint matching agree). -/
def leadsWith : List Char → List Char → Bool
  | [], _ => true
  | _ :: _, [] => false
  | p :: ps, c :: cs => p = c && leadsWith ps cs

/-- `strings.Replace(s, pat, new, 1)` on character lists: replace the first
occurrence of `pat` (inserting at the start when `pat` is empty), leave
later occurrences alone; return `s` unchanged when `pat` does not occur. -/
def replaceOnceL (s pat new : List Char) : List Char :=
  match s with
  | [] => if pat.isEmpty then new else []
  | c :: rest =>
      if leadsWith pat (c :: rest) then new ++ (c :: rest).drop pat.length
      else c :: replaceOnceL rest pat new

/-- `strings.Replace(s, pat, new, 1)` on strings. -/
def replaceOnce (s pat new : String) : String :=
  ⟨replaceOnceL s.data pat.data new.data⟩

/-- The alias preprocessing in `doScan`:
`if len(alias) > 0 { name = strings.Replace(name, alias+"_", "", 1) }`. -/
def stripAlias (al name : String) : String :=
  if al.length > 0 then replaceOnce name (al ++ "_") "" else name

/-- A scan destination for one column: either the address of the struct
field at a given index path, or the discard sink `&sql.RawBytes{}` used
when no field is mapped to the column. -/
inductive Target : Type where
  | discard : Target
  | fieldAt (path : List Nat) : Target
deriving Repr, DecidableEq

/-- The target `doScan` builds for a processed column name: the mapped
field's path when the index has the name, else the discard sink. -/
def mkTarget (fi : FieldInfo) (n : String) : Target :=
  match fiLookup fi n with
  | none => Target.discard
  | some idx => Target.fieldAt idx

/-- The per-column loop of `doScan`: strip the alias from each column name,
normalize it with `NameMapper`, look it up in the field index, and emit the
ordered target list handed to `rows.Scan`. -/
def doScanTargets (t : FieldType) (al : String) (columns : List String) : List Target :=
  columns.map (fun name => mkTarget (getFieldInfo t) (NameMapper (stripAlias al name)))

/-- A runtime struct value: a scalar (payload abstracted as a string) or a
struct with an ordered list of field values. -/
inductive Value : Type where
  | vscalar (s : String) : Value
  | vstruct (fields : List Value) : Value
deriving Repr

instance : Inhabited Value := ⟨.vscalar ""⟩

/-- Read the sub-value at a field index path (`reflect.Value.FieldByIndex`). -/
def getPath : Value → List Nat → Value
  | v, [] => v
  | .vstruct fs, i :: rest => getPath (fs.getD i default) rest
  | .vscalar s, _ :: _ => .vscalar s

/-- Write `nv` at a field index path, leaving everything else unchanged
(the effect of `rows.Scan` writing through the pointer
`elem.FieldByIndex(idx).Addr()`). -/
def setPath : Value → List Nat → Value → Value
  | _, [], nv => nv
  | .vstruct fs, i :: rest, nv => .vstruct (fs.set i (setPath (fs.getD i default) rest nv))
  | .vscalar s, _ :: _, _ => .vscalar s

/-- The effect of the driver's `rows.Scan(values...)` on the destination
struct: each row value is written through its target; discard targets
consume the value without touching the struct. -/
def scanValues (dest : Value) : List Target → List Value → Value
  | Target.fieldAt p :: ts, v :: vs => scanValues (setPath dest p v) ts vs
  | Target.discard :: ts, _ :: vs => scanValues dest ts vs
  | _, _ => dest

/-- Result of `doScan`: the panic on a non-struct destination, or the
updated destination struct. -/
inductive ScanResult : Type where
  | panicked (msg : String) : ScanResult
  | ok (v : Value) : ScanResult
deriving Repr

/-- `doScan(dest, rows, alias)`: panic unless the destination points to a
struct; otherwise resolve each row column to a target and apply the
driver's scan.  `columns`/`vals` are the row cursor's column names and
values. -/
def doScan (t : FieldType) (dest : Value) (al : String)
    (columns : List String) (vals : List Value) : ScanResult :=
  if isStruct t = false then .panicked "dest must be pointer to struct"
  else .ok (scanValues dest (doScanTargets t al columns) vals)

/-- `Scan(dest, rows)`, which is `doScan(dest, rows, "")`. -/
def Scan (t : FieldType) (dest : Value)
    (columns : List String) (vals : List Value) : ScanResult :=
  doScan t dest "" columns vals

/-- `ScanAliased(dest, rows, alias)`, which is `doScan(dest, rows, alias)`. -/
def ScanAliased (t : FieldType) (dest : Value)
    (columns : List String) (vals : List Value) (al : String) : ScanResult :=
  doScan t dest al columns vals

/-- Go error values as produced by the package: a base error message or
`errors.Join` of two errors. -/
inductive Err : Type where
  | base (msg : String) : Err
  | joined (a b : Err) : Err
deriving Repr, DecidableEq

/-- `joinOrErr(err, nErr)`: keep `err` when `nErr` is nil, adopt `nErr`
when `err` is nil, otherwise `errors.Join(err, nErr)`. -/
def joinOrErr (err nErr : Option Err) : Option Err :=
  match nErr with
  | none => err
  | some ne =>
    match err with
    | none => some ne
    | some e => some (.joined e ne)

/-- The distinct error returned when `SetDatabase` was never called. -/
def dbNotSetErr : Err := .base "sqlstruct: database not set"

/-- The `QueryReplace` placeholder token (default `"*"`). -/
def QueryReplace : String := "*"

/-- `doQuery[T](query, ...)`: when the global handle is unset, return the
"database not set" error without running anything; otherwise replace the
first occurrence of `QueryReplace` with `Columns[T]()` and hand the query
to the driver (the returned string is the query actually executed). -/
def doQuery (dbSet : Bool) (t : FieldType) (query : String) : Except Err String :=
  if dbSet = false then .error dbNotSetErr
  else .ok (replaceOnce query QueryReplace (Columns t))

/-- The control flow shared by `Query` and `QueryRow`: on a `doQuery`
error return it directly (no cursor was obtained); otherwise run the
per-row body and the deferred `rows.Close()`, combining their errors with
`joinOrErr`.  The boolean records whether the cursor was closed. -/
def queryFlow (dbSet : Bool) (t : FieldType) (query : String)
    (bodyErr closeErr : Option Err) : Option Err × Bool :=
  match doQuery dbSet t query with
  | .error e => (some e, false)
  | .ok _ => (joinOrErr bodyErr closeErr, true)

/-! ### Basic properties of the field-info map -/

/-- The keys a single field contributes to the index: none when skipped,
the flattened sub-index's keys when merged, its own normalized tag/name
otherwise. -/
def fieldKeys (f : GField) : List String :=
  if fexported f = false || ftag f = "-" then []
  else if fanon f && isStruct (ftype f) && !implScanner (ftype f) then
    (getFieldInfo (ftype f)).map Prod.fst
  else [NameMapper (if ftag f = "" then fname f else ftag f)]

/-- The field list paired with each field's sub-index, as `getFieldInfo`
passes it to `buildFrom`. -/
def enrich (fields : List GField) : List (GField × FieldInfo) :=
  fields.map (fun f => (f, getFieldInfo (ftype f)))

theorem getFieldInfo_leaf : getFieldInfo .leaf = [] := by
  rw [getFieldInfo]

theorem getFieldInfo_strct (b : Bool) (fields : List GField) :
    getFieldInfo (.strct b fields) = buildFrom (enrich fields) 0 [] := by
  rw [getFieldInfo, enrich]
  congr 1
  exact List.attach_map_val fields (fun f => (f, getFieldInfo (ftype f)))

theorem fiInsert_cons_self (k : String) (v v0 : List Nat) (rest : FieldInfo) :
    fiInsert ((k, v0) :: rest) k v = (k, v) :: rest := by
  simp [fiInsert]

theorem fiInsert_cons_ne (k0 k : String) (v v0 : List Nat) (rest : FieldInfo)
    (h : k0 ≠ k) : fiInsert ((k0, v0) :: rest) k v = (k0, v0) :: fiInsert rest k v := by
  simp [fiInsert, h]

theorem fiLookup_fiInsert_self (m : FieldInfo) (k : String) (v : List Nat) :
    fiLookup (fiInsert m k v) k = some v := by
  induction m with
  | nil => simp [fiInsert, fiLookup]
  | cons e rest ih =>
    obtain ⟨k', v'⟩ := e
    by_cases h : k' = k
    · simp [fiInsert, h, fiLookup]
    · simp [fiInsert, h, fiLookup, ih]

theorem fiLookup_fiInsert_ne (m : FieldInfo) (k k' : String) (v : List Nat)
    (h : k' ≠ k) : fiLookup (fiInsert m k v) k' = fiLookup m k' := by
  have hne : ¬ k = k' := fun hh => h hh.symm
  induction m with
  | nil => simp [fiInsert, fiLookup, hne]
  | cons e rest ih =>
    obtain ⟨k0, v0⟩ := e
    by_cases h0 : k0 = k
    · subst h0
      simp [fiInsert, fiLookup, hne]
    · simp [fiInsert, if_neg h0, fiLookup, ih]

theorem mem_fiInsert (m : FieldInfo) (k : String) (v : List Nat)
    (e : String × List Nat) (he : e ∈ fiInsert m k v) :
    e = (k, v) ∨ e ∈ m := by
  induction m with
  | nil => simpa [fiInsert] using he
  | cons e0 rest ih =>
    obtain ⟨k0, v0⟩ := e0
    by_cases h0 : k0 = k
    · simp only [fiInsert, if_pos h0, List.mem_cons] at he
      rcases he with h | h
      · exact Or.inl h
      · exact Or.inr (List.mem_cons_of_mem _ h)
    · simp only [fiInsert, if_neg h0, List.mem_cons] at he
      rcases he with h | h
      · exact Or.inr (h ▸ List.mem_cons_self _ _)
      · rcases ih h with h' | h'
        · exact Or.inl h'
        · exact Or.inr (List.mem_cons_of_mem _ h')

theorem mem_keys_fiInsert (m : FieldInfo) (k : String) (v : List Nat) (a : String) :
    a ∈ (fiInsert m k v).map Prod.fst ↔ a = k ∨ a ∈ m.map Prod.fst := by
  induction m with
  | nil => simp [fiInsert]
  | cons e0 rest ih =>
    obtain ⟨k0, v0⟩ := e0
    by_cases h0 : k0 = k
    · subst h0
      rw [fiInsert_cons_self]
      simp only [List.map_cons, List.mem_cons]
      tauto
    · rw [fiInsert_cons_ne _ _ _ _ _ h0]
      simp only [List.map_cons, List.mem_cons, ih]
      tauto

theorem nodupKeys_fiInsert (m : FieldInfo) (k : String) (v : List Nat)
    (h : (m.map Prod.fst).Nodup) : ((fiInsert m k v).map Prod.fst).Nodup := by
  induction m with
  | nil => simp [fiInsert]
  | cons e0 rest ih =>
    obtain ⟨k0, v0⟩ := e0
    simp only [List.map_cons, List.nodup_cons] at h
    by_cases h0 : k0 = k
    · subst h0
      simpa [fiInsert] using h
    · simp only [fiInsert, if_neg h0, List.map_cons, List.nodup_cons]
      refine ⟨fun hc => ?_, ih h.2⟩
      rw [mem_keys_fiInsert] at hc
      rcases hc with hc | hc
      · exact h0 hc
      · exact h.1 hc

theorem fiLookup_mem (m : FieldInfo) (k : String) (v : List Nat)
    (h : fiLookup m k = some v) : (k, v) ∈ m := by
  induction m with
  | nil => simp [fiLookup] at h
  | cons e0 rest ih =>
    obtain ⟨k0, v0⟩ := e0
    by_cases h0 : k0 = k
    · subst h0
      have hv : v0 = v := by simpa [fiLookup] using h
      subst hv
      exact List.mem_cons_self _ _
    · simp only [fiLookup, if_neg h0] at h
      exact List.mem_cons_of_mem _ (ih h)

/-! ### The embedded-struct merge fold -/

theorem fiLookup_mergeFold_notmem (sub : FieldInfo) (i : Nat) (acc : FieldInfo)
    (k : String) (h : k ∉ sub.map Prod.fst) :
    fiLookup (sub.foldl (fun m kv => fiInsert m kv.1 (i :: kv.2)) acc) k = fiLookup acc k := by
  induction sub generalizing acc with
  | nil => rfl
  | cons e rest ih =>
    obtain ⟨k0, v0⟩ := e
    simp only [List.map_cons, List.mem_cons, not_or] at h
    simp only [List.foldl_cons]
    rw [ih _ h.2, fiLookup_fiInsert_ne _ _ _ _ h.1]

theorem fiLookup_mergeFold_mem (sub : FieldInfo) (i : Nat) (acc : FieldInfo)
    (k : String) (v : List Nat)
    (hnd : (sub.map Prod.fst).Nodup) (hm : (k, v) ∈ sub) :
    fiLookup (sub.foldl (fun m kv => fiInsert m kv.1 (i :: kv.2)) acc) k = some (i :: v) := by
  induction sub generalizing acc with
  | nil => simp at hm
  | cons e rest ih =>
    obtain ⟨k0, v0⟩ := e
    simp only [List.map_cons, List.nodup_cons] at hnd
    simp only [List.foldl_cons]
    rcases List.mem_cons.1 hm with h | h
    · obtain ⟨hk, hv⟩ := Prod.mk.injEq .. ▸ h
      subst hk
      subst hv
      have hnotin : k ∉ rest.map Prod.fst := hnd.1
      rw [fiLookup_mergeFold_notmem _ _ _ _ hnotin, fiLookup_fiInsert_self]
    · exact ih _ hnd.2 h

theorem mem_mergeFold (sub : FieldInfo) (i : Nat) (acc : FieldInfo)
    (e : String × List Nat)
    (he : e ∈ sub.foldl (fun m kv => fiInsert m kv.1 (i :: kv.2)) acc) :
    (∃ kv ∈ sub, e = (kv.1, i :: kv.2)) ∨ e ∈ acc := by
  induction sub generalizing acc with
  | nil => exact Or.inr he
  | cons e0 rest ih =>
    obtain ⟨k0, v0⟩ := e0
    simp only [List.foldl_cons] at he
    rcases ih _ he with h | h
    · obtain ⟨kv, hkv, hkveq⟩ := h
      exact Or.inl ⟨kv, List.mem_cons_of_mem _ hkv, hkveq⟩
    · rcases mem_fiInsert _ _ _ _ h with h' | h'
      · exact Or.inl ⟨(k0, v0), List.mem_cons_self _ _, h'⟩
      · exact Or.inr h'

theorem nodupKeys_mergeFold (sub : FieldInfo) (i : Nat) (acc : FieldInfo)
    (h : (acc.map Prod.fst).Nodup) :
    (((sub.foldl (fun m kv => fiInsert m kv.1 (i :: kv.2)) acc)).map Prod.fst).Nodup := by
  induction sub generalizing acc with
  | nil => exact h
  | cons e0 rest ih =>
    simp only [List.foldl_cons]
    exact ih _ (nodupKeys_fiInsert _ _ _ h)

/-! ### Lookup through `stepField` and `buildFrom` -/

theorem fiLookup_stepField_notmem (i : Nat) (f : GField) (acc : FieldInfo)
    (k : String) (h : k ∉ fieldKeys f) :
    fiLookup (stepField i f (getFieldInfo (ftype f)) acc) k = fiLookup acc k := by
  unfold stepField
  unfold fieldKeys at h
  by_cases h1 : fexported f = false || ftag f = "-"
  · rw [if_pos h1]
  · rw [if_neg h1]
    rw [if_neg h1] at h
    by_cases h2 : (fanon f && isStruct (ftype f) && !implScanner (ftype f)) = true
    · rw [if_pos h2]
      rw [if_pos h2] at h
      exact fiLookup_mergeFold_notmem _ _ _ _ h
    · rw [if_neg h2]
      rw [if_neg h2] at h
      simp only [List.mem_singleton] at h
      exact fiLookup_fiInsert_ne _ _ _ _ h

theorem fiLookup_buildFrom_notmem (fs : List GField) (i : Nat) (acc : FieldInfo)
    (k : String) (h : ∀ f ∈ fs, k ∉ fieldKeys f) :
    fiLookup (buildFrom (enrich fs) i acc) k = fiLookup acc k := by
  induction fs generalizing i acc with
  | nil => rfl
  | cons f rest ih =>
    simp only [enrich, List.map_cons, buildFrom]
    rw [show List.map (fun f => (f, getFieldInfo (ftype f))) rest = enrich rest from rfl]
    rw [ih _ _ (fun g hg => h g (List.mem_cons_of_mem _ hg))]
    exact fiLookup_stepField_notmem _ _ _ _ (h f (List.mem_cons_self _ _))

theorem buildFrom_append (xs ys : List (GField × FieldInfo)) (i : Nat) (acc : FieldInfo) :
    buildFrom (xs ++ ys) i acc = buildFrom ys (i + xs.length) (buildFrom xs i acc) := by
  induction xs generalizing i acc with
  | nil => simp [buildFrom]
  | cons x rest ih =>
    obtain ⟨f, sub⟩ := x
    simp only [List.cons_append, buildFrom, List.length_cons]
    have harith : i + (rest.length + 1) = i + 1 + rest.length := by omega
    rw [harith]
    exact ih (i + 1) (stepField i f sub acc)

theorem enrich_append (xs ys : List GField) :
    enrich (xs ++ ys) = enrich xs ++ enrich ys := by
  simp [enrich]

theorem enrich_cons (f : GField) (rest : List GField) :
    enrich (f :: rest) = (f, getFieldInfo (ftype f)) :: enrich rest := by
  simp [enrich]

theorem nodupKeys_stepField (i : Nat) (f : GField) (sub acc : FieldInfo)
    (h : (acc.map Prod.fst).Nodup) :
    ((stepField i f sub acc).map Prod.fst).Nodup := by
  unfold stepField
  by_cases h1 : fexported f = false || ftag f = "-"
  · rwa [if_pos h1]
  · rw [if_neg h1]
    by_cases h2 : (fanon f && isStruct (ftype f) && !implScanner (ftype f)) = true
    · rw [if_pos h2]
      exact nodupKeys_mergeFold _ _ _ h
    · rw [if_neg h2]
      exact nodupKeys_fiInsert _ _ _ h

theorem nodupKeys_buildFrom (l : List (GField × FieldInfo)) (i : Nat) (acc : FieldInfo)
    (h : (acc.map Prod.fst).Nodup) :
    ((buildFrom l i acc).map Prod.fst).Nodup := by
  induction l generalizing i acc with
  | nil => exact h
  | cons e rest ih =>
    obtain ⟨f, sub⟩ := e
    exact ih _ _ (nodupKeys_stepField _ _ _ _ h)

theorem nodupKeys_getFieldInfo (t : FieldType) :
    ((getFieldInfo t).map Prod.fst).Nodup := by
  cases t with
  | leaf => simp [getFieldInfo]
  | strct b fields =>
    rw [getFieldInfo_strct]
    exact nodupKeys_buildFrom _ _ _ (by simp)

/-! ### Binding lemmas for a single field -/

theorem fiLookup_stepField_leaf (i : Nat) (f : GField) (sub acc : FieldInfo)
    (hexp : fexported f = true) (htag : ftag f ≠ "-")
    (hleaf : (fanon f && isStruct (ftype f) && !implScanner (ftype f)) = false) :
    fiLookup (stepField i f sub acc)
        (NameMapper (if ftag f = "" then fname f else ftag f)) = some [i] := by
  unfold stepField
  rw [if_neg (by simp [hexp, htag]), if_neg (by simp [hleaf])]
  exact fiLookup_fiInsert_self _ _ _

theorem fiLookup_stepField_merge (i : Nat) (f : GField) (acc : FieldInfo)
    (k : String) (v : List Nat)
    (hexp : fexported f = true) (htag : ftag f ≠ "-")
    (hmerge : (fanon f && isStruct (ftype f) && !implScanner (ftype f)) = true)
    (hmem : (k, v) ∈ getFieldInfo (ftype f)) :
    fiLookup (stepField i f (getFieldInfo (ftype f)) acc) k = some (i :: v) := by
  unfold stepField
  rw [if_neg (by simp [hexp, htag]), if_pos (by simp [hmerge])]
  exact fiLookup_mergeFold_mem _ _ _ _ _ (nodupKeys_getFieldInfo _) hmem

/-- Char.toLower maps into characters that `Char.toLower` fixes. -/
theorem toLower_toLower (c : Char) : c.toLower.toLower = c.toLower := by
  unfold Char.toLower
  by_cases h : c.toNat ≥ 65 ∧ c.toNat ≤ 90
  · rw [if_pos h]
    have hval : (Char.ofNat (c.toNat + 32)).toNat = c.toNat + 32 := by
      rw [Char.ofNat]
      split
      · rfl
      · rename_i hv
        exact absurd (Or.inl (by omega)) hv
    rw [if_neg (by omega)]
  · rw [if_neg h, if_neg h]

theorem NameMapper_idem (s : String) : NameMapper (NameMapper s) = NameMapper s := by
  unfold NameMapper
  apply String.ext
  simp [List.map_map, Function.comp, toLower_toLower]

theorem sizeOf_ftype_lt {f : GField} {b : Bool} {fields : List GField}
    (hf : f ∈ fields) : sizeOf (ftype f) < sizeOf (FieldType.strct b fields) := by
  have hm := List.sizeOf_lt_of_mem hf
  obtain ⟨nm, tg, ex, an, ft⟩ := f
  simp only [ftype]
  simp only [Prod.mk.sizeOf_spec] at hm
  simp only [FieldType.strct.sizeOf_spec]
  omega

theorem stepField_keys_normalized (i : Nat) (f : GField) (acc : FieldInfo)
    (hsub : ∀ e ∈ getFieldInfo (ftype f), NameMapper e.1 = e.1)
    (hacc : ∀ e ∈ acc, NameMapper e.1 = e.1) :
    ∀ e ∈ stepField i f (getFieldInfo (ftype f)) acc, NameMapper e.1 = e.1 := by
  intro e he
  unfold stepField at he
  split at he
  · exact hacc e he
  · split at he
    · rcases mem_mergeFold _ _ _ _ he with ⟨kv, hkv, rfl⟩ | h
      · exact hsub kv hkv
      · exact hacc e h
    · rcases mem_fiInsert _ _ _ _ he with rfl | h
      · exact NameMapper_idem _
      · exact hacc e h

theorem buildFrom_keys_normalized (fs : List GField) (i : Nat) (acc : FieldInfo)
    (hsub : ∀ f ∈ fs, ∀ e ∈ getFieldInfo (ftype f), NameMapper e.1 = e.1)
    (hacc : ∀ e ∈ acc, NameMapper e.1 = e.1) :
    ∀ e ∈ buildFrom (enrich fs) i acc, NameMapper e.1 = e.1 := by
  induction fs generalizing i acc with
  | nil => exact hacc
  | cons f rest ih =>
    rw [enrich_cons]
    rw [buildFrom]
    exact ih _ _ (fun g hg => hsub g (List.mem_cons_of_mem _ hg))
      (stepField_keys_normalized _ _ _ (hsub f (List.mem_cons_self _ _)) hacc)

/-- Every key in a field index is already normalized: `NameMapper` fixes it. -/
theorem keys_normalized (t : FieldType) :
    ∀ e ∈ getFieldInfo t, NameMapper e.1 = e.1 := by
  generalize hn : sizeOf t = n
  induction n using Nat.strong_induction_on generalizing t with
  | _ n IH =>
    cases t with
    | leaf =>
      intro e he
      simp [getFieldInfo] at he
    | strct b fields =>
      rw [getFieldInfo_strct]
      refine buildFrom_keys_normalized fields 0 [] ?_ (by simp)
      intro f hf
      exact IH _ (hn ▸ sizeOf_ftype_lt hf) _ rfl

/-! ### Distinct index entries address disjoint parts of the struct -/

/-- Two field paths diverge: at some position where both are defined they
select different fields, so neither is a prefix of the other. -/
def DivergePaths : List Nat → List Nat → Prop
  | [], _ => False
  | _ :: _, [] => False
  | a :: p, b :: q => a ≠ b ∨ DivergePaths p q

/-- Entries with distinct keys have diverging paths. -/
def GoodInfo (fi : FieldInfo) : Prop :=
  ∀ e1 ∈ fi, ∀ e2 ∈ fi, e1.1 ≠ e2.1 → DivergePaths e1.2 e2.2

/-- All paths start with a field position below `i`. -/
def HeadLt (i : Nat) (fi : FieldInfo) : Prop :=
  ∀ e ∈ fi, ∃ h t, e.2 = h :: t ∧ h < i

theorem stepField_good (i : Nat) (f : GField) (acc : FieldInfo)
    (hsub : GoodInfo (getFieldInfo (ftype f)))
    (hg : GoodInfo acc) (hh : HeadLt i acc) :
    GoodInfo (stepField i f (getFieldInfo (ftype f)) acc) ∧
      HeadLt (i + 1) (stepField i f (getFieldInfo (ftype f)) acc) := by
  have hmono : ∀ fi, HeadLt i fi → HeadLt (i + 1) fi := by
    intro fi h e he
    obtain ⟨hd, tl, heq, hlt⟩ := h e he
    exact ⟨hd, tl, heq, by omega⟩
  unfold stepField
  split
  · exact ⟨hg, hmono _ hh⟩
  · split
    · constructor
      · intro e1 h1 e2 h2 hne
        rcases mem_mergeFold _ _ _ _ h1 with ⟨kv1, hkv1, rfl⟩ | ha1
        · rcases mem_mergeFold _ _ _ _ h2 with ⟨kv2, hkv2, rfl⟩ | ha2
          · exact Or.inr (hsub kv1 hkv1 kv2 hkv2 hne)
          · obtain ⟨hd, tl, heq, hlt⟩ := hh e2 ha2
            rw [heq]
            exact Or.inl (by omega)
        · rcases mem_mergeFold _ _ _ _ h2 with ⟨kv2, hkv2, rfl⟩ | ha2
          · obtain ⟨hd, tl, heq, hlt⟩ := hh e1 ha1
            rw [heq]
            exact Or.inl (by omega)
          · exact hg e1 ha1 e2 ha2 hne
      · intro e he
        rcases mem_mergeFold _ _ _ _ he with ⟨kv, hkv, rfl⟩ | ha
        · exact ⟨i, kv.2, rfl, by omega⟩
        · exact hmono _ hh e ha
    · constructor
      · intro e1 h1 e2 h2 hne
        rcases mem_fiInsert _ _ _ _ h1 with rfl | ha1
        · rcases mem_fiInsert _ _ _ _ h2 with rfl | ha2
          · exact absurd rfl hne
          · obtain ⟨hd, tl, heq, hlt⟩ := hh e2 ha2
            rw [heq]
            exact Or.inl (by omega)
        · rcases mem_fiInsert _ _ _ _ h2 with rfl | ha2
          · obtain ⟨hd, tl, heq, hlt⟩ := hh e1 ha1
            rw [heq]
            exact Or.inl (by omega)
          · exact hg e1 ha1 e2 ha2 hne
      · intro e he
        rcases mem_fiInsert _ _ _ _ he with rfl | ha
        · exact ⟨i, [], rfl, by omega⟩
        · exact hmono _ hh e ha

theorem buildFrom_good (fs : List GField) (i : Nat) (acc : FieldInfo)
    (hsub : ∀ f ∈ fs, GoodInfo (getFieldInfo (ftype f)))
    (hg : GoodInfo acc) (hh : HeadLt i acc) :
    GoodInfo (buildFrom (enrich fs) i acc) := by
  induction fs generalizing i acc with
  | nil => exact hg
  | cons f rest ih =>
    rw [enrich_cons, buildFrom]
    obtain ⟨hg', hh'⟩ := stepField_good i f acc (hsub f (List.mem_cons_self _ _)) hg hh
    exact ih _ _ (fun g hg0 => hsub g (List.mem_cons_of_mem _ hg0)) hg' hh'

/-- The index of any type is well-formed: entries with distinct column
names address diverging field paths. -/
theorem goodInfo_getFieldInfo (t : FieldType) : GoodInfo (getFieldInfo t) := by
  generalize hn : sizeOf t = n
  induction n using Nat.strong_induction_on generalizing t with
  | _ n IH =>
    cases t with
    | leaf =>
      intro e he
      simp [getFieldInfo] at he
    | strct b fields =>
      rw [getFieldInfo_strct]
      refine buildFrom_good fields 0 [] ?_ (by intro e he; simp at he) (by intro e he; simp at he)
      intro f hf
      exact IH _ (hn ▸ sizeOf_ftype_lt hf) _ rfl

/-! ### Writes through one path do not disturb diverging paths -/

theorem getPath_setPath_diverge (p q : List Nat) (hpq : DivergePaths p q)
    (v nv : Value) : getPath (setPath v q nv) p = getPath v p := by
  induction p generalizing q v with
  | nil => exact absurd hpq (by simp [DivergePaths])
  | cons a p' ih =>
    cases q with
    | nil => exact absurd hpq (by simp [DivergePaths])
    | cons b q' =>
      cases v with
      | vscalar s => rfl
      | vstruct fs =>
        show getPath (Value.vstruct (fs.set b (setPath (fs.getD b default) q' nv))) (a :: p')
          = getPath (Value.vstruct fs) (a :: p')
        show getPath ((fs.set b (setPath (fs.getD b default) q' nv)).getD a default) p'
          = getPath (fs.getD a default) p'
        by_cases hab : a = b
        · subst hab
          have hd : DivergePaths p' q' := by
            rcases hpq with h | h
            · exact absurd rfl h
            · exact h
          by_cases hlen : a < fs.length
          · rw [List.getD_eq_getElem?_getD, List.getElem?_set_self hlen]
            exact ih q' hd (fs.getD a default)
          · rw [List.set_eq_of_length_le (by omega)]
        · rw [List.getD_eq_getElem?_getD,
            List.getElem?_set_ne (fun h => hab h.symm),
            ← List.getD_eq_getElem?_getD]

theorem getPath_scanValues (p : List Nat) (targets : List Target)
    (vals : List Value) (dest : Value)
    (h : ∀ tg ∈ targets,
      tg = Target.discard ∨ ∃ q, tg = Target.fieldAt q ∧ DivergePaths p q) :
    getPath (scanValues dest targets vals) p = getPath dest p := by
  induction targets generalizing dest vals with
  | nil => cases vals <;> rfl
  | cons tg ts ih =>
    cases vals with
    | nil => cases tg <;> rfl
    | cons v vs =>
      rcases h tg (List.mem_cons_self _ _) with rfl | ⟨q, rfl, hq⟩
      · show getPath (scanValues dest ts vs) p = _
        exact ih vs dest (fun t0 ht => h t0 (List.mem_cons_of_mem _ ht))
      · show getPath (scanValues (setPath dest q v) ts vs) p = _
        rw [ih vs _ (fun t0 ht => h t0 (List.mem_cons_of_mem _ ht))]
        exact getPath_setPath_diverge p q hq dest v

/-! ### Fixtures (the test types of the package and the spec's examples) -/

/-- The `EmbeddedType` fixture from the package's tests. -/
def EmbeddedTypeT : FieldType :=
  .strct false [("FieldE", "field_e", true, false, .leaf)]

/-- The `testType` fixture from the package's tests. -/
def testTypeT : FieldType := .strct false
  [("FieldA", "field_a", true, false, .leaf),
   ("FieldB", "-", true, false, .leaf),
   ("FieldC", "field_C", true, false, .leaf),
   ("Field_D", "", true, false, .leaf),
   ("EmbeddedType", "", true, true, EmbeddedTypeT)]

/-- The spec's §8.1 example fields:
`{FieldA sql:"field_a", FieldB sql:"-", FieldC sql:"field_C"}`. -/
def exampleC1Fields : List GField :=
  [("FieldA", "field_a", true, false, .leaf),
   ("FieldB", "-", true, false, .leaf),
   ("FieldC", "field_C", true, false, .leaf)]

/-- The struct type over `exampleC1Fields`. -/
def exampleC1T : FieldType := .strct false exampleC1Fields

/-- A type with two fields normalizing to the same column name `"name"`. -/
def collideFields : List GField :=
  [("Name", "", true, false, .leaf),
   ("NAME", "name", true, false, .leaf)]

/-- A type with one column `"name"` (the spec's alias round-trip example). -/
def userT : FieldType := .strct false [("Name", "name", true, false, .leaf)]

/-! ### C1: the column list -/

/-- The spec's notion of a qualifying field: exported and not tagged with
the exclusion sentinel `"-"`. -/
def specQualifies (f : GField) : Bool :=
  fexported f && !decide (ftag f = "-")

/-- The spec's normalized column name of a field: the tag when present,
the field name otherwise, normalized. -/
def specColName (f : GField) : String :=
  NameMapper (if ftag f = "" then fname f else ftag f)

/-- The spec's column-name list: normalized names of qualifying fields. -/
def specColNames (fields : List GField) : List String :=
  (fields.filter specQualifies).map specColName

theorem stepField_skip (i : Nat) (f : GField) (sub acc : FieldInfo)
    (hq : specQualifies f = false) : stepField i f sub acc = acc := by
  unfold stepField
  rw [if_pos]
  cases hfe : fexported f <;> simp_all [specQualifies]

theorem stepField_leaf_eq (i : Nat) (f : GField) (sub acc : FieldInfo)
    (hq : specQualifies f = true)
    (hleaf : (fanon f && isStruct (ftype f) && !implScanner (ftype f)) = false) :
    stepField i f sub acc = fiInsert acc (specColName f) [i] := by
  unfold stepField
  rw [if_neg, if_neg (by simp [hleaf])]
  · rfl
  · cases hfe : fexported f <;> simp_all [specQualifies]

theorem keys_buildFrom_flat (fs : List GField) (i : Nat) (acc : FieldInfo)
    (hflat : ∀ f ∈ fs, (fanon f && isStruct (ftype f) && !implScanner (ftype f)) = false) :
    ∀ a, a ∈ (buildFrom (enrich fs) i acc).map Prod.fst ↔
      a ∈ acc.map Prod.fst ∨ a ∈ specColNames fs := by
  induction fs generalizing i acc with
  | nil => simp [specColNames, enrich, buildFrom]
  | cons f rest ih =>
    intro a
    rw [enrich_cons, buildFrom,
      ih _ _ (fun g hg => hflat g (List.mem_cons_of_mem _ hg))]
    by_cases hq : specQualifies f = true
    · rw [stepField_leaf_eq _ _ _ _ hq (hflat f (List.mem_cons_self _ _))]
      rw [mem_keys_fiInsert]
      rw [show specColNames (f :: rest) = specColName f :: specColNames rest from by
        simp [specColNames, List.filter_cons, hq]]
      simp only [List.mem_cons]
      tauto
    · rw [stepField_skip _ _ _ _ (by simpa using hq)]
      rw [show specColNames (f :: rest) = specColNames rest from by
        simp [specColNames, List.filter_cons, Bool.of_not_eq_true hq]]

/-- C1: for a struct type whose fields are all plain (no flattened
embedded struct), `Columns` is exactly the set of normalized column names
of the qualifying fields — unexported and `"-"`-tagged fields omitted, tag
used when present, field name otherwise — without duplicates, sorted
lexicographically ascending, joined with `", "`. -/
theorem columns_is_sorted_qualifying_names (b : Bool) (fields : List GField)
    (hflat : ∀ f ∈ fields,
      (fanon f && isStruct (ftype f) && !implScanner (ftype f)) = false) :
    Columns (.strct b fields) = String.intercalate ", " (cols (.strct b fields)) ∧
    List.Pairwise (· ≤ ·) (cols (.strct b fields)) ∧
    (cols (.strct b fields)).Nodup ∧
    ∀ s, s ∈ cols (.strct b fields) ↔ s ∈ specColNames fields := by
  refine ⟨rfl, ?_, ?_, ?_⟩
  · exact (List.sorted_insertionSort strLe
      ((getFieldInfo (.strct b fields)).map Prod.fst)).imp
      (fun h => (strLe_iff_le _ _).1 h)
  · exact ((List.perm_insertionSort _ _).symm.nodup
      (nodupKeys_getFieldInfo (.strct b fields)))
  · intro s
    rw [cols, (List.perm_insertionSort _ _).mem_iff, getFieldInfo_strct]
    have h := keys_buildFrom_flat fields 0 [] hflat s
    simpa using h

theorem getFieldInfo_exampleC1T :
    getFieldInfo exampleC1T = [("field_a", [0]), ("field_c", [2])] := by
  rw [exampleC1T, getFieldInfo_strct]
  simp only [exampleC1Fields, enrich, List.map_cons, List.map_nil, ftype, getFieldInfo_leaf]
  decide

/-- Witness for C1 at the spec's example type: the hypotheses hold and the
column list is `"field_a, field_c"`. -/
theorem columns_is_sorted_qualifying_names_witness :
    Columns exampleC1T = "field_a, field_c" ∧
    List.Pairwise (· ≤ ·) (cols exampleC1T) ∧
    (∀ s, s ∈ cols exampleC1T ↔ s ∈ specColNames exampleC1Fields) := by
  have h := columns_is_sorted_qualifying_names false exampleC1Fields (by decide)
  refine ⟨?_, h.2.1, h.2.2.2⟩
  rw [Columns, cols, getFieldInfo_exampleC1T]
  decide

/-! ### Position of a field's binding in the final index -/

/-- A qualifying plain (non-flattened) field at position `pre.length`
binds its normalized column name to path `[pre.length]` in the final
index, provided no later field rebinds that name — regardless of what
earlier fields bound to it. -/
theorem lookup_append_leaf (b : Bool) (pre post : List GField) (f : GField)
    (hexp : fexported f = true) (htag : ftag f ≠ "-")
    (hleaf : (fanon f && isStruct (ftype f) && !implScanner (ftype f)) = false)
    (hpost : ∀ g ∈ post, specColName f ∉ fieldKeys g) :
    fiLookup (getFieldInfo (.strct b (pre ++ f :: post))) (specColName f)
      = some [pre.length] := by
  rw [getFieldInfo_strct, enrich_append, buildFrom_append, enrich_cons, buildFrom]
  rw [fiLookup_buildFrom_notmem post _ _ _ hpost]
  rw [show specColName f = NameMapper (if ftag f = "" then fname f else ftag f) from rfl]
  rw [fiLookup_stepField_leaf _ _ _ _ hexp htag hleaf]
  simp [enrich]

/-- An embedded (anonymous, non-`Scanner`) struct field at position
`pre.length` contributes each entry `(k, v)` of the embedded type's index
as `(k, pre.length :: v)`, provided no later field rebinds `k`. -/
theorem lookup_append_merge (b : Bool) (pre post : List GField) (f : GField)
    (k : String) (v : List Nat)
    (hexp : fexported f = true) (htag : ftag f ≠ "-")
    (hmerge : (fanon f && isStruct (ftype f) && !implScanner (ftype f)) = true)
    (hmem : (k, v) ∈ getFieldInfo (ftype f))
    (hpost : ∀ g ∈ post, k ∉ fieldKeys g) :
    fiLookup (getFieldInfo (.strct b (pre ++ f :: post))) k
      = some (pre.length :: v) := by
  rw [getFieldInfo_strct, enrich_append, buildFrom_append, enrich_cons, buildFrom]
  rw [fiLookup_buildFrom_notmem post _ _ _ hpost]
  rw [fiLookup_stepField_merge _ _ _ _ _ hexp htag hmerge hmem]
  simp [enrich]

/-- C4: when two or more fields normalize to the same column name, the
final index maps that name to the path of the field processed last in
declaration order; earlier fields' bindings are silently overwritten.
(`pre` may contain any number of earlier fields binding the same name.) -/
theorem collision_last_field_wins (b : Bool) (pre post : List GField) (f : GField)
    (hexp : fexported f = true) (htag : ftag f ≠ "-")
    (hleaf : (fanon f && isStruct (ftype f) && !implScanner (ftype f)) = false)
    (hpost : ∀ g ∈ post, specColName f ∉ fieldKeys g) :
    fiLookup (getFieldInfo (.strct b (pre ++ f :: post))) (specColName f)
      = some [pre.length] :=
  lookup_append_leaf b pre post f hexp htag hleaf hpost

theorem getFieldInfo_collideT :
    getFieldInfo (.strct false collideFields) = [("name", [1])] := by
  rw [getFieldInfo_strct]
  simp only [collideFields, enrich, List.map_cons, List.map_nil, ftype, getFieldInfo_leaf]
  decide

/-- Witness for C4: in `collideFields` both fields normalize to `"name"`;
the index binds `"name"` to the second field's path `[1]`. -/
theorem collision_last_field_wins_witness :
    specColName (("Name", "", true, false, FieldType.leaf) : GField) = "name" ∧
    specColName (("NAME", "name", true, false, FieldType.leaf) : GField) = "name" ∧
    fiLookup (getFieldInfo (.strct false collideFields)) "name" = some [1] := by
  have h := collision_last_field_wins false
    [("Name", "", true, false, FieldType.leaf)] []
    ("NAME", "name", true, false, FieldType.leaf)
    (by decide) (by decide) (by decide) (by simp)
  refine ⟨by decide, by decide, ?_⟩
  have hs : specColName (("NAME", "name", true, false, FieldType.leaf) : GField)
      = "name" := by decide
  rw [hs] at h
  exact h

/-- C3: an embedded (anonymous) struct field whose pointer type does not
implement `Scanner` is flattened: every entry of the embedded type's own
index appears with the embedding position prepended (conjunct 1), and the
processing of that field binds nothing outside the embedded index's keys —
in particular nothing under the field's own name/tag (conjunct 2).  When
the pointer type does implement `Scanner`, the field is a single leaf
column under its own normalized name/tag and is not flattened
(conjunct 3). -/
theorem embedded_struct_flattening (b sb : Bool) (pre post : List GField)
    (nm tg : String) (subf : List GField) (htag : tg ≠ "-") :
    (sb = false →
      ∀ k v, (k, v) ∈ getFieldInfo (.strct sb subf) →
        (∀ g ∈ post, k ∉ fieldKeys g) →
        fiLookup (getFieldInfo
            (.strct b (pre ++ ((nm, tg, true, true, .strct sb subf) : GField) :: post))) k
          = some (pre.length :: v)) ∧
    (sb = false →
      ∀ (i : Nat) (acc : FieldInfo) (k : String),
        k ∉ (getFieldInfo (.strct sb subf)).map Prod.fst →
        fiLookup (stepField i ((nm, tg, true, true, .strct sb subf) : GField)
            (getFieldInfo (.strct sb subf)) acc) k = fiLookup acc k) ∧
    (sb = true →
      (∀ g ∈ post,
        specColName ((nm, tg, true, true, .strct sb subf) : GField) ∉ fieldKeys g) →
      fiLookup (getFieldInfo
          (.strct b (pre ++ ((nm, tg, true, true, .strct sb subf) : GField) :: post)))
          (specColName ((nm, tg, true, true, .strct sb subf) : GField))
        = some [pre.length]) := by
  refine ⟨?_, ?_, ?_⟩
  · intro hsb k v hmem hpost
    subst hsb
    exact lookup_append_merge b pre post _ k v rfl htag
      (by simp [fanon, isStruct, implScanner, ftype]) hmem hpost
  · intro hsb i acc k hk
    subst hsb
    unfold stepField
    rw [if_neg (by simp [fexported, ftag, htag]),
      if_pos (by simp [fanon, isStruct, implScanner, ftype])]
    exact fiLookup_mergeFold_notmem _ _ _ _ hk
  · intro hsb hpost
    subst hsb
    exact lookup_append_leaf b pre post _ rfl htag
      (by simp [fanon, isStruct, implScanner, ftype]) hpost

theorem getFieldInfo_EmbeddedTypeT :
    getFieldInfo EmbeddedTypeT = [("field_e", [0])] := by
  rw [EmbeddedTypeT, getFieldInfo_strct]
  simp only [enrich, List.map_cons, List.map_nil, ftype, getFieldInfo_leaf]
  decide

/-- Witness for C3: the test type's embedded `EmbeddedType` (whose pointer
type implements no `Scanner`) contributes `("field_e", [4, 0])`; a
`Scanner`-implementing embedded struct is bound as leaf `[0]` under its
own tag. -/
theorem embedded_struct_flattening_witness :
    fiLookup (getFieldInfo testTypeT) "field_e" = some [4, 0] ∧
    fiLookup (getFieldInfo (.strct false
        [(("Wrapper", "wrap", true, true, .strct true
            [("Inner", "inner", true, false, .leaf)]) : GField)])) "wrap"
      = some [0] := by
  constructor
  · have h := (embedded_struct_flattening false false
      [(("FieldA", "field_a", true, false, FieldType.leaf) : GField),
       ("FieldB", "-", true, false, FieldType.leaf),
       ("FieldC", "field_C", true, false, FieldType.leaf),
       ("Field_D", "", true, false, FieldType.leaf)] []
      "EmbeddedType" "" [("FieldE", "field_e", true, false, FieldType.leaf)]
      (by decide)).1 rfl "field_e" [0]
      (by rw [show FieldType.strct false [("FieldE", "field_e", true, false, FieldType.leaf)]
            = EmbeddedTypeT from rfl, getFieldInfo_EmbeddedTypeT]; decide)
      (by simp)
    exact h
  · have h := (embedded_struct_flattening false true [] []
      "Wrapper" "wrap" [("Inner", "inner", true, false, FieldType.leaf)]
      (by decide)).2.2 rfl (by simp)
    have hs : specColName (("Wrapper", "wrap", true, true,
        FieldType.strct true [("Inner", "inner", true, false, FieldType.leaf)]) : GField)
        = "wrap" := by decide
    rw [hs] at h
    exact h

/-! ### C2: unmapped columns are discarded, unmatched fields untouched -/

/-- C2: scanning a row into a struct never fails because of columns with
no entry in the field index — such columns get a discard target
(conjunct 2) and the scan completes normally (conjunct 1) — and every
field whose column name does not occur among the row's (processed) column
names keeps its pre-scan value (conjunct 3). -/
theorem scan_preserves_unmatched_fields (t : FieldType) (dest : Value) (al : String)
    (columns : List String) (vals : List Value) (n : String) (p : List Nat)
    (hstruct : isStruct t = true)
    (hn : fiLookup (getFieldInfo t) n = some p)
    (habsent : ∀ c ∈ columns, NameMapper (stripAlias al c) ≠ n) :
    doScan t dest al columns vals
      = .ok (scanValues dest (doScanTargets t al columns) vals) ∧
    (∀ c ∈ columns, fiLookup (getFieldInfo t) (NameMapper (stripAlias al c)) = none →
      mkTarget (getFieldInfo t) (NameMapper (stripAlias al c)) = Target.discard) ∧
    getPath (scanValues dest (doScanTargets t al columns) vals) p = getPath dest p := by
  refine ⟨by simp [doScan, hstruct], ?_, ?_⟩
  · intro c _ hnone
    simp [mkTarget, hnone]
  · apply getPath_scanValues
    intro tg htg
    obtain ⟨c, hc, rfl⟩ := List.mem_map.1 htg
    rcases hq : fiLookup (getFieldInfo t) (NameMapper (stripAlias al c)) with _ | q
    · exact Or.inl (by simp [mkTarget, hq])
    · refine Or.inr ⟨q, by simp [mkTarget, hq], ?_⟩
      have h1 := fiLookup_mem _ _ _ hn
      have h2 := fiLookup_mem _ _ _ hq
      refine goodInfo_getFieldInfo t (n, p) h1 (NameMapper (stripAlias al c), q) h2 ?_
      intro hh
      exact habsent c hc (by simpa using hh.symm)

theorem getFieldInfo_testTypeT :
    getFieldInfo testTypeT
      = [("field_a", [0]), ("field_c", [2]), ("field_d", [3]), ("field_e", [4, 0])] := by
  rw [testTypeT, getFieldInfo_strct]
  simp only [enrich, List.map_cons, List.map_nil, ftype, getFieldInfo_leaf,
    getFieldInfo_EmbeddedTypeT]
  decide

/-- A destination value for `testTypeT` with recognizable field contents. -/
def destW : Value :=
  .vstruct [.vscalar "x0", .vscalar "x1", .vscalar "x2", .vscalar "x3",
    .vstruct [.vscalar "x4"]]

/-- Witness for C2: scanning columns `field_a` (mapped) and `field_b`
(unmapped) leaves `field_c` (path `[2]`) at its pre-scan value `"x2"`. -/
theorem scan_preserves_unmatched_fields_witness :
    getPath (scanValues destW
        (doScanTargets testTypeT "" ["field_a", "field_b"])
        [.vscalar "a", .vscalar "b"]) [2]
      = getPath destW [2] := by
  have h := scan_preserves_unmatched_fields testTypeT destW "" ["field_a", "field_b"]
    [.vscalar "a", .vscalar "b"] "field_c" [2]
    (by decide)
    (by rw [getFieldInfo_testTypeT]; decide)
    (by intro c hc
        fin_cases hc <;> decide)
  exact h.2.2

/-! ### C5/C6: alias stripping and the alias round trip -/

theorem length_pos_of_ne_empty {s : String} (h : s ≠ "") : 0 < s.length := by
  cases s with
  | mk data =>
    cases data with
    | nil => simp at h
    | cons c cs => simp [String.length]

theorem leadsWith_append (p r : List Char) : leadsWith p (p ++ r) = true := by
  induction p with
  | nil => rfl
  | cons c cs ih => simp [leadsWith, ih]

theorem replaceOnceL_append (pat rest new : List Char) :
    replaceOnceL (pat ++ rest) pat new = new ++ rest := by
  cases pat with
  | nil =>
    cases rest with
    | nil => simp [replaceOnceL]
    | cons c cs => simp [replaceOnceL, leadsWith]
  | cons p ps =>
    have hl : leadsWith (p :: ps) ((p :: ps) ++ rest) = true := leadsWith_append _ _
    simp only [List.cons_append] at hl ⊢
    rw [replaceOnceL, if_pos hl]
    rw [show ((p :: ps).length) = ps.length + 1 from rfl, List.drop_succ_cons,
      List.drop_left]

theorem replaceOnce_append (pat rest new : String) :
    replaceOnce (pat ++ rest) pat new = new ++ rest := by
  apply String.ext
  show replaceOnceL (pat ++ rest).data pat.data new.data = (new ++ rest).data
  rw [String.data_append, String.data_append]
  exact replaceOnceL_append _ _ _

/-- C5: with a non-empty alias, each row column name has the first
occurrence of `"{alias}_"` removed before being normalized and looked up
(conjunct 1); with no alias the name is looked up unchanged after
normalization (conjunct 2); and removing the first occurrence strips the
`"{alias}_"` prefix when the name starts with it (conjunct 3). -/
theorem alias_stripped_before_lookup (t : FieldType) (al : String)
    (columns : List String) :
    (al ≠ "" → doScanTargets t al columns = columns.map
      (fun c => mkTarget (getFieldInfo t) (NameMapper (replaceOnce c (al ++ "_") "")))) ∧
    (doScanTargets t "" columns = columns.map
      (fun c => mkTarget (getFieldInfo t) (NameMapper c))) ∧
    (∀ pat rest : String, replaceOnce (pat ++ rest) pat "" = "" ++ rest) := by
  refine ⟨?_, ?_, ?_⟩
  · intro ha
    unfold doScanTargets
    apply List.map_congr_left
    intro c _
    rw [stripAlias, if_pos (length_pos_of_ne_empty ha)]
  · unfold doScanTargets
    apply List.map_congr_left
    intro c _
    rw [stripAlias, if_neg (by decide)]
  · intro pat rest
    exact replaceOnce_append pat rest ""

theorem getFieldInfo_userT : getFieldInfo userT = [("name", [0])] := by
  rw [userT, getFieldInfo_strct]
  simp only [enrich, List.map_cons, List.map_nil, ftype, getFieldInfo_leaf]
  decide

/-- Witness for C5: with alias `"u"`, column `"u_name"` is stripped to
`"name"` and resolves to the `name` field's target. -/
theorem alias_stripped_before_lookup_witness :
    doScanTargets userT "u" ["u_name"] = ["u_name"].map
      (fun c => mkTarget (getFieldInfo userT) (NameMapper (replaceOnce c ("u" ++ "_") ""))) ∧
    replaceOnce ("u_" ++ "name") "u_" "" = "" ++ "name" ∧
    doScanTargets userT "u" ["u_name"] = [Target.fieldAt [0]] := by
  have h := alias_stripped_before_lookup userT "u" ["u_name"]
  refine ⟨h.1 (by decide), h.2.2 "u_" "name", ?_⟩
  rw [h.1 (by decide), List.map_cons, List.map_nil, mkTarget, getFieldInfo_userT]
  decide

/-- C6: alias round trip.  `ColumnsAliased` emits `"a.n AS a_n"` for each
sorted column name (conjunct 1); a mapped name `n` occurs among the sorted
names (conjunct 2); and scanning a row whose single column is `"a_n"`
with alias `a` writes the row value into precisely the field mapped to
`n` (conjunct 3). -/
theorem alias_round_trip (t : FieldType) (a n : String) (p : List Nat)
    (dest v : Value)
    (ha : a ≠ "") (hstruct : isStruct t = true)
    (hn : fiLookup (getFieldInfo t) n = some p) :
    ColumnsAliased t a = String.intercalate ", "
      ((cols t).map (fun m => a ++ "." ++ m ++ " AS " ++ a ++ "_" ++ m)) ∧
    n ∈ cols t ∧
    doScan t dest a [a ++ "_" ++ n] [v] = .ok (setPath dest p v) := by
  refine ⟨rfl, ?_, ?_⟩
  · rw [cols, (List.perm_insertionSort _ _).mem_iff]
    exact List.mem_map.2 ⟨(n, p), fiLookup_mem _ _ _ hn, rfl⟩
  · rw [doScan, if_neg (by simp [hstruct])]
    congr 1
    have hstrip : stripAlias a (a ++ "_" ++ n) = n := by
      rw [stripAlias, if_pos (length_pos_of_ne_empty ha)]
      have := replaceOnce_append (a ++ "_") n ""
      rw [this]
      apply String.ext
      simp [String.data_append]
    have hnorm : NameMapper n = n := keys_normalized t (n, p) (fiLookup_mem _ _ _ hn)
    rw [doScanTargets, List.map_cons, List.map_nil, hstrip, hnorm, mkTarget, hn]
    rfl

/-- Witness for C6 at the spec's example: `ColumnsAliased` for a type with
column `"name"` and alias `"u"` is `"u.name AS u_name"`, and scanning
column `"u_name"` with alias `"u"` populates the `name` field. -/
theorem alias_round_trip_witness :
    ColumnsAliased userT "u" = "u.name AS u_name" ∧
    doScan userT (Value.vstruct [Value.vscalar ""]) "u" ["u_name"]
        [Value.vscalar "gedi"]
      = .ok (Value.vstruct [Value.vscalar "gedi"]) := by
  have h := alias_round_trip userT "u" "name" [0]
    (Value.vstruct [Value.vscalar ""]) (Value.vscalar "gedi")
    (by decide) (by decide) (by rw [getFieldInfo_userT]; decide)
  constructor
  · rw [ColumnsAliased, cols, getFieldInfo_userT]
    decide
  · have heq : ("u" ++ "_" ++ "name" : String) = "u_name" := by decide
    rw [heq] at h
    rw [h.2.2]
    rfl

/-! ### C7/C8: query helpers and error combination -/

/-- C7: when the cursor was obtained, it is closed on every exit path,
and a per-row error and a `Close` error are combined — neither replaces
nor suppresses the other (conjuncts 1–3); the cursor is closed regardless
of which errors occurred (conjunct 4). -/
theorem query_cleanup_combines_errors (t : FieldType) (q : String)
    (e1 e2 : Err) (berr cerr : Option Err) :
    queryFlow true t q (some e1) (some e2) = (some (.joined e1 e2), true) ∧
    queryFlow true t q (some e1) none = (some e1, true) ∧
    queryFlow true t q none (some e2) = (some e2, true) ∧
    (queryFlow true t q berr cerr).2 = true := by
  refine ⟨rfl, rfl, rfl, ?_⟩
  cases berr <;> cases cerr <;> rfl

/-- C8: with no database configured, `doQuery` fails with the distinct
"database not set" error and nothing reaches the driver (conjuncts 1–2);
when configured, exactly the first occurrence of the placeholder is
replaced by the column list before execution (conjuncts 3–4). -/
theorem unset_database_and_placeholder (t : FieldType) (q : String)
    (berr cerr : Option Err) (rest : String) :
    doQuery false t q = .error dbNotSetErr ∧
    queryFlow false t q berr cerr = (some dbNotSetErr, false) ∧
    doQuery true t q = .ok (replaceOnce q QueryReplace (Columns t)) ∧
    replaceOnce (QueryReplace ++ rest) QueryReplace (Columns t)
      = Columns t ++ rest := by
  exact ⟨rfl, rfl, rfl, replaceOnce_append _ _ _⟩

/-! ### C9/C10: destination check and the trivial alias -/

/-- C9: scanning into a destination that is not a struct aborts with a
panic, not a recoverable error (conjunct 1); for a struct destination the
abort branch is never taken and the scan proceeds (conjunct 2). -/
theorem non_struct_dest_panics (t : FieldType) (dest : Value) (al : String)
    (columns : List String) (vals : List Value) :
    (isStruct t = false → doScan t dest al columns vals
      = .panicked "dest must be pointer to struct") ∧
    (isStruct t = true → doScan t dest al columns vals
      = .ok (scanValues dest (doScanTargets t al columns) vals)) := by
  constructor
  · intro h
    simp [doScan, h]
  · intro h
    simp [doScan, h]

/-- Witness for C9: a non-struct destination type panics; a struct
destination type does not. -/
theorem non_struct_dest_panics_witness :
    doScan .leaf (Value.vscalar "") "" [] []
      = .panicked "dest must be pointer to struct" ∧
    doScan userT (Value.vstruct [Value.vscalar ""]) "" [] []
      = .ok (scanValues (Value.vstruct [Value.vscalar ""])
          (doScanTargets userT "" []) []) := by
  have h1 := non_struct_dest_panics .leaf (Value.vscalar "") "" [] []
  have h2 := non_struct_dest_panics userT (Value.vstruct [Value.vscalar ""]) "" [] []
  exact ⟨h1.1 rfl, h2.2 rfl⟩

/-- C10: `ScanAliased` with the empty alias is exactly `Scan`: same
result on all inputs (conjunct 1), and the empty alias performs no
stripping on any column name (conjunct 2). -/
theorem scanAliased_empty_is_scan (t : FieldType) (dest : Value)
    (columns : List String) (vals : List Value) :
    ScanAliased t dest columns vals "" = Scan t dest columns vals ∧
    (∀ c : String, stripAlias "" c = c) := by
  refine ⟨rfl, ?_⟩
  intro c
  rw [stripAlias, if_neg (by decide)]

end Sqlstruct
